import Mathlib

/-!
Verification of the storage layer and data model of an officials tracker.

The program persists collections of positions, persons, departments,
subdepartments and mentions as JSON documents.  The embedding models each
stored collection as a Lean list (loading and saving a document is the
identity on this model), a JSON object as an association list from string
keys to JSON values, and a mention document on disk as a parse outcome.
Python strings are compared lexicographically by code point; the small
string primitives the code relies on (`startswith`, `split`, `int`, `str`,
`zfill`, slicing) are modelled explicitly below.  Python `list.sort` is a
stable sort, and a stable sort of a list is unique, so it is modelled by
`List.insertionSort`, which is stable.
-/

namespace Tracker

/-- Lexicographic comparison of character lists by code point, mirroring
Python string comparison `a <= b`. -/
def listLe : List Char → List Char → Bool
  | [], _ => true
  | _ :: _, [] => false
  | a :: l1, b :: l2 =>
    if a.toNat < b.toNat then true
    else if b.toNat < a.toNat then false
    else listLe l1 l2

/-- Python `a <= b` on strings. -/
def strLe (a b : String) : Bool := listLe a.toList b.toList

/-- Python `s.startswith(p)`. -/
def starts_with (p s : String) : Bool := List.isPrefixOf p.toList s.toList

/-- Helper for `split_underscore`: accumulates the current chunk reversed. -/
def splitUAux : List Char → List Char → List String
  | [], acc => [String.mk acc.reverse]
  | c :: cs, acc =>
    if c == ('_') then String.mk acc.reverse :: splitUAux cs []
    else splitUAux cs (c :: acc)

/-- Python `s.split('_')`. -/
def split_underscore (s : String) : List String := splitUAux s.toList []

/-- Numeric value of a list of decimal digit characters. -/
def digitsToNat (cs : List Char) : Nat :=
  cs.foldl (fun acc c => acc * 10 + (c.toNat - 48)) 0

/-- Python `int(s)`: an optional sign followed by one or more decimal
digits; `none` models the `ValueError` raised on any other string. -/
def pyInt (s : String) : Option Int :=
  match s.toList with
  | [] => none
  | c :: cs =>
    if c == ('-') then
      if cs ≠ [] ∧ cs.all (fun d => d.isDigit) then some (-(digitsToNat cs : Int))
      else none
    else if c == ('+') then
      if cs ≠ [] ∧ cs.all (fun d => d.isDigit) then some ((digitsToNat cs : Int))
      else none
    else
      if (c :: cs).all (fun d => d.isDigit) then some ((digitsToNat (c :: cs) : Int))
      else none

/-- The decimal digit character for `n < 10`. -/
def digitChar (n : Nat) : Char := Char.ofNat (48 + n)

/-- Helper for `nat_repr`, recursing on explicit fuel. -/
def natReprAux : Nat → Nat → List Char → List Char
  | 0, _, acc => acc
  | fuel + 1, n, acc =>
    if n < 10 then digitChar n :: acc
    else natReprAux fuel (n / 10) (digitChar (n % 10) :: acc)

/-- Python `str(n)` for a natural number. -/
def nat_repr (n : Nat) : String := String.mk (natReprAux (n + 1) n [])

/-- Python `str(n).zfill(3)` for the nonnegative numbers the code feeds it. -/
def zfill3 (n : Nat) : String :=
  let s := nat_repr n
  if s.length < 3 then String.mk (List.replicate (3 - s.length) ('0')) ++ s
  else s

/-- Python `l[:n]` for an integer `n`: the first `n` elements when `n ≥ 0`,
all but the last `-n` elements when `n < 0`. -/
def pyTakeSlice {α : Type} (n : Int) (l : List α) : List α :=
  if 0 ≤ n then l.take n.toNat else l.take (l.length - (-n).toNat)

/-! ### Data model (`src/core/models.py`)

Date-like fields are ISO date strings.  Fields that are `Optional` in the
dataclasses, or that JSON deserialization can set to `None`, are `Option
String`.  The `date` field of `Mention` is annotated `str` in the source but
the sort key `m.date if m.date else ''` anticipates `None`, which a document
with a JSON `null` date produces, so it is modelled as `Option String`. -/

/-- `Department` dataclass. -/
structure Department where
  id : String
  name : String
  level : String
  is_active : Bool
  created_at : String
  deactivated_at : Option String
deriving DecidableEq

/-- `Subdepartment` dataclass. -/
structure Subdepartment where
  id : String
  name : String
  department_name : String
  is_active : Bool
  created_at : String
  deactivated_at : Option String
deriving DecidableEq

/-- `Position` dataclass. -/
structure Position where
  id : String
  title : String
  department : String
  subdepartment : Option String
  level : String
  created_at : String
  is_active : Bool
deriving DecidableEq

/-- `PositionAssignment` dataclass. -/
structure PositionAssignment where
  position_id : String
  start_date : Option String
  end_date : Option String
  is_current : Bool
deriving DecidableEq

/-- `Person` dataclass. -/
structure Person where
  id : String
  name : String
  positions : List PositionAssignment
  created_at : String
deriving DecidableEq

/-- `Mention` dataclass. -/
structure Mention where
  id : String
  person_id : String
  date : Option String
  source : String
  url : Option String
  title : Option String
  text : String
  tags : List String
  collection_method : String
  collected_by : String
  collected_at : String
  approved : Bool
  approved_by : Option String
  approved_at : Option String
deriving DecidableEq

/-! ### JSON objects and `Mention` serialization -/

/-- JSON values appearing in a serialized mention: strings, null, booleans,
and arrays of strings (the `tags` field). -/
inductive JVal where
  | s (v : String)
  | null
  | b (v : Bool)
  | arr (v : List String)
deriving DecidableEq

/-- `None`-aware serialization of an optional string field. -/
def optJ : Option String → JVal
  | some v => JVal.s v
  | none => JVal.null

/-- `Mention.to_dict` (`dataclasses.asdict`): all fields, declaration order. -/
def Mention.to_dict (m : Mention) : List (String × JVal) :=
  [("id", JVal.s m.id),
   ("person_id", JVal.s m.person_id),
   ("date", optJ m.date),
   ("source", JVal.s m.source),
   ("url", optJ m.url),
   ("title", optJ m.title),
   ("text", JVal.s m.text),
   ("tags", JVal.arr m.tags),
   ("collection_method", JVal.s m.collection_method),
   ("collected_by", JVal.s m.collected_by),
   ("collected_at", JVal.s m.collected_at),
   ("approved", JVal.b m.approved),
   ("approved_by", optJ m.approved_by),
   ("approved_at", optJ m.approved_at)]

/-- The field names of the `Mention` dataclass; `cls(**data)` raises
`TypeError` on any key outside this list. -/
def mentionFields : List String :=
  ["id", "person_id", "date", "source", "url", "title", "text", "tags",
   "collection_method", "collected_by", "collected_at", "approved",
   "approved_by", "approved_at"]

/-- A string field: required when `dflt` is `none` (missing key raises
`TypeError`), otherwise defaulted. -/
def fldStr (d : List (String × JVal)) (k : String) (dflt : Option String) :
    Option String :=
  match d.lookup k with
  | some (JVal.s v) => some v
  | some _ => none
  | none => dflt

/-- An `Optional[str]` field with default `None`: absent or JSON null give
`none`. -/
def fldOptStr (d : List (String × JVal)) (k : String) : Option (Option String) :=
  match d.lookup k with
  | some (JVal.s v) => some (some v)
  | some JVal.null => some none
  | some _ => none
  | none => some none

/-- A required key whose value may be a string or JSON null (the `date`
field as produced by documents in the wild). -/
def fldReqNullable (d : List (String × JVal)) (k : String) :
    Option (Option String) :=
  match d.lookup k with
  | some (JVal.s v) => some (some v)
  | some JVal.null => some none
  | _ => none

/-- The `tags` field, defaulting to the empty list. -/
def fldTags (d : List (String × JVal)) : Option (List String) :=
  match d.lookup ("tags") with
  | some (JVal.arr v) => some v
  | none => some []
  | some _ => none

/-- A boolean field with a default. -/
def fldBool (d : List (String × JVal)) (k : String) (dflt : Bool) : Option Bool :=
  match d.lookup k with
  | some (JVal.b v) => some v
  | none => some dflt
  | some _ => none

/-- `Mention.from_dict` (`cls(**data)`): fails on unknown keys or missing
required keys; optional fields take their dataclass defaults.  The
`collected_at` default is the current timestamp in the source; it is
modelled as a fixed empty string, which no claim observes. -/
def Mention.from_dict (d : List (String × JVal)) : Option Mention :=
  if d.all (fun kv => mentionFields.contains kv.1) then do
    let i ← fldStr d ("id") none
    let pid ← fldStr d ("person_id") none
    let dt ← fldReqNullable d ("date")
    let src ← fldStr d ("source") none
    let url ← fldOptStr d ("url")
    let ttl ← fldOptStr d ("title")
    let txt ← fldStr d ("text") (some (""))
    let tgs ← fldTags d
    let cm ← fldStr d ("collection_method") (some ("manual"))
    let cb ← fldStr d ("collected_by") (some ("user"))
    let ca ← fldStr d ("collected_at") (some (""))
    let ap ← fldBool d ("approved") true
    let apBy ← fldOptStr d ("approved_by")
    let apAt ← fldOptStr d ("approved_at")
    some ⟨i, pid, dt, src, url, ttl, txt, tgs, cm, cb, ca, ap, apBy, apAt⟩
  else none

/-! ### `Person` methods -/

/-- The loop body of `Person.get_current_position`: first assignment with
`is_current`. -/
def firstCurrent : List PositionAssignment → Option PositionAssignment
  | [] => none
  | a :: rest => if a.is_current then some a else firstCurrent rest

/-- `Person.get_current_position`. -/
def Person.get_current_position (p : Person) : Option PositionAssignment :=
  firstCurrent p.positions

/-- `Person.add_position`: appends one assignment with
`is_current = (end_date is None)`. -/
def Person.add_position (p : Person) (position_id : String)
    (start_date : String) (end_date : Option String) : Person :=
  { p with positions := p.positions ++
      [{ position_id := position_id, start_date := some start_date,
         end_date := end_date, is_current := end_date.isNone }] }

/-! ### Storage operations (`src/core/storage.py`)

Each operation takes the stored collection (the parsed content of the
backing JSON document) as an explicit argument; writers return the new
stored collection.  File locking serializes access and is invisible to the
sequential model. -/

/-- `StorageManager.get_position`: first record with the given id. -/
def get_position : List Position → String → Option Position
  | [], _ => none
  | p :: rest, position_id =>
    if p.id == position_id then some p else get_position rest position_id

/-- `StorageManager.update_position`: replaces the first record whose id
matches and returns `True`; returns `False` without saving on a miss.  The
pair is (returned flag, stored collection after the call). -/
def update_position : List Position → Position → Bool × List Position
  | [], _ => (false, [])
  | p :: rest, position =>
    if p.id == position.id then (true, position :: rest)
    else
      let r := update_position rest position
      (r.1, p :: r.2)

/-- `StorageManager.get_person`. -/
def get_person : List Person → String → Option Person
  | [], _ => none
  | p :: rest, person_id =>
    if p.id == person_id then some p else get_person rest person_id

/-- `StorageManager.update_person`. -/
def update_person : List Person → Person → Bool × List Person
  | [], _ => (false, [])
  | p :: rest, person =>
    if p.id == person.id then (true, person :: rest)
    else
      let r := update_person rest person
      (r.1, p :: r.2)

/-- Inner loop of `StorageManager.get_persons_by_position`: scans the
assignments; on a position match the current-only test either accepts the
person (`break`) or the scan continues. -/
def holdsAssignment : List PositionAssignment → String → Bool → Bool
  | [], _, _ => false
  | a :: rest, position_id, current_only =>
    if a.position_id == position_id then
      if !current_only || a.is_current then true
      else holdsAssignment rest position_id current_only
    else holdsAssignment rest position_id current_only

/-- `StorageManager.get_persons_by_position`. -/
def get_persons_by_position :
    List Person → String → Bool → List Person
  | [], _, _ => []
  | p :: rest, position_id, current_only =>
    if holdsAssignment p.positions position_id current_only then
      p :: get_persons_by_position rest position_id current_only
    else get_persons_by_position rest position_id current_only

/-- The membership predicate `get_persons_by_position` filters by: some
assignment matches the position and, when `current_only`, is current. -/
def holds_position (position_id : String) (current_only : Bool)
    (p : Person) : Bool :=
  p.positions.any (fun a =>
    a.position_id == position_id && (!current_only || a.is_current))

/-- `StorageManager.get_department`: first record with the given name. -/
def get_department : List Department → String → Option Department
  | [], _ => none
  | d :: rest, name =>
    if d.name == name then some d else get_department rest name

/-- `StorageManager.update_department`: replace the first record with the
same name, or append on a miss (`for`/`else`), then save. -/
def update_department : List Department → Department → List Department
  | [], department => [department]
  | d :: rest, department =>
    if d.name == department.name then department :: rest
    else d :: update_department rest department

/-- `StorageManager.get_subdepartment`: first record matching the
(name, department_name) composite key. -/
def get_subdepartment :
    List Subdepartment → String → String → Option Subdepartment
  | [], _, _ => none
  | s :: rest, name, department_name =>
    if s.name == name && s.department_name == department_name then some s
    else get_subdepartment rest name department_name

/-- `StorageManager.update_subdepartment`: replace the first record with
the same composite key, or append on a miss. -/
def update_subdepartment :
    List Subdepartment → Subdepartment → List Subdepartment
  | [], subdepartment => [subdepartment]
  | s :: rest, subdepartment =>
    if s.name == subdepartment.name &&
        s.department_name == subdepartment.department_name then
      subdepartment :: rest
    else s :: update_subdepartment rest subdepartment

/-- `StorageManager.get_next_person_id`. -/
def get_next_person_id (persons : List Person) : String :=
  if persons.isEmpty then ("person_001")
  else
    let m := persons.foldl (fun acc p =>
      if starts_with ("person_") (p.id) then
        match pyInt ((split_underscore p.id).getD 1 ("")) with
        | some n => max acc n
        | none => acc
      else acc) (0 : Int)
    ("person_") ++ zfill3 (m + 1).toNat

/-- `StorageManager.get_next_position_id`. -/
def get_next_position_id (positions : List Position) : String :=
  if positions.isEmpty then ("pos_001")
  else
    let m := positions.foldl (fun acc p =>
      if starts_with ("pos_") (p.id) then
        match pyInt ((split_underscore p.id).getD 1 ("")) with
        | some n => max acc n
        | none => acc
      else acc) (0 : Int)
    ("pos_") ++ zfill3 (m + 1).toNat

/-- The numeric value the id-counter scan extracts from one id: the token
between the first and second underscore, parsed as a Python int; `none`
when the prefix does not match or the token is not numeric. -/
def id_token_value (pfx id : String) : Option Int :=
  if starts_with pfx id then pyInt ((split_underscore id).getD 1 (""))
  else none

/-- The running maximum (floored at 0) of the extracted token values. -/
def max_token_value (pfx : String) (ids : List String) : Int :=
  (ids.filterMap (id_token_value pfx)).foldl (fun a b => max a b) 0

/-! ### Mentions repository -/

/-- A mention document on disk: `none` models a file whose JSON fails to
parse; `some d` is the parsed JSON object, which `Mention.from_dict` may
still reject.  The `try` block in `load_mentions` catches both failures. -/
abbrev MDoc := Option (List (String × JVal))

/-- Parse one mention document: JSON parse, then `Mention.from_dict`. -/
def parse_mention_doc (d : MDoc) : Option Mention := d.bind Mention.from_dict

/-- The sort key `m.date if m.date else ''`. -/
def dateKey (m : Mention) : String := m.date.getD ("")

/-- Sort order of `mentions.sort(key=..., reverse=True)`: `a` may precede
`b` iff `a`'s date key is at least `b`'s (descending). -/
def mention_before (a b : Mention) : Prop :=
  strLe (dateKey b) (dateKey a) = true

instance mention_before_dec : DecidableRel mention_before :=
  fun a b => Bool.decEq (strLe (dateKey b) (dateKey a)) true

/-- `StorageManager.load_mentions` for one person: the parseable documents
of that person's directory, stably sorted by date descending. -/
def load_mentions (docs : List MDoc) : List Mention :=
  List.insertionSort mention_before (docs.filterMap parse_mention_doc)

/-- The union step of `StorageManager.get_all_mentions`: extend with each
person directory's `load_mentions` result. -/
def all_loaded_mentions (dirs : List (String × List MDoc)) : List Mention :=
  (dirs.map (fun pd => load_mentions pd.2)).flatten

/-- The re-sorted union inside `get_all_mentions`. -/
def all_mentions_sorted (dirs : List (String × List MDoc)) : List Mention :=
  List.insertionSort mention_before (all_loaded_mentions dirs)

/-- `StorageManager.get_all_mentions`: re-sorted union, sliced when `limit`
is truthy (`if limit:` is false for `None` and for `0`). -/
def get_all_mentions (dirs : List (String × List MDoc))
    (limit : Option Int) : List Mention :=
  match limit with
  | none => all_mentions_sorted dirs
  | some n =>
    if n = 0 then all_mentions_sorted dirs
    else pyTakeSlice n (all_mentions_sorted dirs)

/-- The plain union of all parseable mention documents, without the
re-sort: the reference value the sorted results permute. -/
def all_parsed_mentions (dirs : List (String × List MDoc)) : List Mention :=
  (dirs.map (fun pd => pd.2.filterMap parse_mention_doc)).flatten

/-! ### Concrete sample data for evaluating the model -/

/-- A minimal mention with a given id and date. -/
def mkMention (i : String) (dt : Option String) : Mention :=
  ⟨i, ("person_001"), dt, ("src"), none, none, (""), [], ("manual"),
   ("user"), (""), true, none, none⟩

/-- A minimal person with a given id and assignments. -/
def mkPerson (i : String) (ps : List PositionAssignment) : Person :=
  ⟨i, ("Name"), ps, ("2020-01-01")⟩

/-- A minimal position with a given id. -/
def mkPosition (i : String) : Position :=
  ⟨i, ("Title"), ("Dept"), none, ("federal"), ("2020-01-01"), true⟩

/-- A position sharing `mkPosition`'s id with different content. -/
def posB : Position :=
  ⟨("pos_001"), ("New Title"), ("Dept"), none, ("federal"), ("2021-01-01"), true⟩

/-- Two sample departments sharing the natural key (the name). -/
def depA : Department :=
  ⟨("dept_001"), ("Finance"), ("federal"), true, ("2020-01-01"), none⟩

/-- See `depA`. -/
def depB : Department :=
  ⟨("dept_002"), ("Finance"), ("federal"), false, ("2021-01-01"),
   some ("2021-06-01")⟩

/-- A sample subdepartment. -/
def subA : Subdepartment :=
  ⟨("subdept_001"), ("Budget"), ("Finance"), true, ("2020-01-01"), none⟩

/-- A current assignment to pos_001. -/
def assignCur : PositionAssignment :=
  ⟨("pos_001"), some ("2020-01-01"), none, true⟩

/-- A second current assignment, to pos_002. -/
def assignCur2 : PositionAssignment :=
  ⟨("pos_002"), some ("2021-01-01"), none, true⟩

/-- A closed-out assignment to pos_001. -/
def assignOld : PositionAssignment :=
  ⟨("pos_001"), some ("2018-01-01"), some ("2019-12-31"), false⟩

end Tracker

namespace Tracker

/-! ### Helper lemmas -/

theorem get_update_department (ds : List Department) (d : Department) :
    get_department (update_department ds d) (d.name) = some d := by
  induction ds with
  | nil => simp [update_department, get_department]
  | cons x t ih =>
    by_cases h : x.name = d.name
    · simp [update_department, get_department, h]
    · simp [update_department, get_department, h, ih]

theorem get_update_subdepartment (ss : List Subdepartment) (s : Subdepartment) :
    get_subdepartment (update_subdepartment ss s) (s.name) (s.department_name) =
      some s := by
  induction ss with
  | nil => simp [update_subdepartment, get_subdepartment]
  | cons x t ih =>
    by_cases h1 : x.name = s.name
    · by_cases h2 : x.department_name = s.department_name
      · simp [update_subdepartment, get_subdepartment, h1, h2]
      · simp [update_subdepartment, get_subdepartment, h1, h2, ih]
    · simp [update_subdepartment, get_subdepartment, h1, ih]

theorem update_department_miss (ds : List Department) (d : Department)
    (h : ∀ q ∈ ds, q.name ≠ d.name) : update_department ds d = ds ++ [d] := by
  induction ds with
  | nil => rfl
  | cons x t ih =>
    have hx : x.name ≠ d.name := h x (List.mem_cons_self x t)
    simp [update_department, hx,
      ih (fun q hq => h q (List.mem_cons_of_mem x hq))]

theorem update_department_hit (d : Department) :
    ∀ (l1 : List Department) (q : Department) (l2 : List Department),
      q.name = d.name → (∀ r ∈ l1, r.name ≠ d.name) →
      update_department (l1 ++ q :: l2) d = l1 ++ d :: l2 := by
  intro l1
  induction l1 with
  | nil =>
    intro q l2 hq _
    simp [update_department, hq]
  | cons x t ih =>
    intro q l2 hq hl
    have hx : x.name ≠ d.name := hl x (List.mem_cons_self x t)
    simp [update_department, hx,
      ih q l2 hq (fun r hr => hl r (List.mem_cons_of_mem x hr))]

theorem update_subdepartment_miss (ss : List Subdepartment) (s : Subdepartment)
    (h : ∀ q ∈ ss, q.name ≠ s.name ∨ q.department_name ≠ s.department_name) :
    update_subdepartment ss s = ss ++ [s] := by
  induction ss with
  | nil => rfl
  | cons x t ih =>
    have hx := h x (List.mem_cons_self x t)
    have hcond :
        (x.name == s.name && x.department_name == s.department_name) = false := by
      rcases hx with hx | hx <;> simp [hx]
    simp [update_subdepartment, hcond,
      ih (fun q hq => h q (List.mem_cons_of_mem x hq))]

theorem update_subdepartment_hit (s : Subdepartment) :
    ∀ (l1 : List Subdepartment) (q : Subdepartment) (l2 : List Subdepartment),
      q.name = s.name → q.department_name = s.department_name →
      (∀ r ∈ l1, r.name ≠ s.name ∨ r.department_name ≠ s.department_name) →
      update_subdepartment (l1 ++ q :: l2) s = l1 ++ s :: l2 := by
  intro l1
  induction l1 with
  | nil =>
    intro q l2 hq1 hq2 _
    simp [update_subdepartment, hq1, hq2]
  | cons x t ih =>
    intro q l2 hq1 hq2 hl
    have hx := hl x (List.mem_cons_self x t)
    have hcond :
        (x.name == s.name && x.department_name == s.department_name) = false := by
      rcases hx with hx | hx <;> simp [hx]
    simp [update_subdepartment, hcond,
      ih q l2 hq1 hq2 (fun r hr => hl r (List.mem_cons_of_mem x hr))]

theorem firstCurrent_eq_none_iff (l : List PositionAssignment) :
    firstCurrent l = none ↔ ∀ a ∈ l, a.is_current = false := by
  induction l with
  | nil => simp [firstCurrent]
  | cons a t ih =>
    cases h : a.is_current
    · simp [firstCurrent, h, ih]
    · simp [firstCurrent, h]

theorem firstCurrent_first_match (a : PositionAssignment) :
    ∀ (l1 l2 : List PositionAssignment), (∀ b ∈ l1, b.is_current = false) →
      a.is_current = true → firstCurrent (l1 ++ a :: l2) = some a := by
  intro l1
  induction l1 with
  | nil =>
    intro l2 _ ha
    simp [firstCurrent, ha]
  | cons x t ih =>
    intro l2 hl ha
    have hx := hl x (List.mem_cons_self x t)
    simp [firstCurrent, hx,
      ih l2 (fun b hb => hl b (List.mem_cons_of_mem x hb)) ha]

theorem update_position_found_iff (l : List Position) (e : Position) :
    (update_position l e).1 = true ↔ ∃ p ∈ l, p.id = e.id := by
  induction l with
  | nil => simp [update_position]
  | cons x t ih =>
    by_cases h : x.id = e.id
    · simp [update_position, h]
    · simp [update_position, h, ih]

theorem update_position_miss (l : List Position) (e : Position)
    (h : ∀ p ∈ l, p.id ≠ e.id) : update_position l e = (false, l) := by
  induction l with
  | nil => rfl
  | cons x t ih =>
    have hx := h x (List.mem_cons_self x t)
    simp [update_position, hx,
      ih (fun p hp => h p (List.mem_cons_of_mem x hp))]

theorem update_position_hit (e : Position) :
    ∀ (l1 : List Position) (q : Position) (l2 : List Position),
      q.id = e.id → (∀ r ∈ l1, r.id ≠ e.id) →
      update_position (l1 ++ q :: l2) e = (true, l1 ++ e :: l2) := by
  intro l1
  induction l1 with
  | nil =>
    intro q l2 hq _
    simp [update_position, hq]
  | cons x t ih =>
    intro q l2 hq hl
    have hx := hl x (List.mem_cons_self x t)
    simp [update_position, hx,
      ih q l2 hq (fun r hr => hl r (List.mem_cons_of_mem x hr))]

theorem update_person_found_iff (l : List Person) (e : Person) :
    (update_person l e).1 = true ↔ ∃ p ∈ l, p.id = e.id := by
  induction l with
  | nil => simp [update_person]
  | cons x t ih =>
    by_cases h : x.id = e.id
    · simp [update_person, h]
    · simp [update_person, h, ih]

theorem update_person_miss (l : List Person) (e : Person)
    (h : ∀ p ∈ l, p.id ≠ e.id) : update_person l e = (false, l) := by
  induction l with
  | nil => rfl
  | cons x t ih =>
    have hx := h x (List.mem_cons_self x t)
    simp [update_person, hx,
      ih (fun p hp => h p (List.mem_cons_of_mem x hp))]

theorem update_person_hit (e : Person) :
    ∀ (l1 : List Person) (q : Person) (l2 : List Person),
      q.id = e.id → (∀ r ∈ l1, r.id ≠ e.id) →
      update_person (l1 ++ q :: l2) e = (true, l1 ++ e :: l2) := by
  intro l1
  induction l1 with
  | nil =>
    intro q l2 hq _
    simp [update_person, hq]
  | cons x t ih =>
    intro q l2 hq hl
    have hx := hl x (List.mem_cons_self x t)
    simp [update_person, hx,
      ih q l2 hq (fun r hr => hl r (List.mem_cons_of_mem x hr))]

/-! ### Claim theorems -/

/-- C1: for departments keyed by name and subdepartments keyed by the
(name, department_name) pair, the upsert (`update_department`,
`update_subdepartment`) followed by the key lookup (`get_department`,
`get_subdepartment`) returns a value equal to the upserted entity, whether
the key was present (replace in place) or absent (append). -/
theorem upsert_then_get_returns_upserted :
    (∀ (ds : List Department) (d : Department),
      get_department (update_department ds d) (d.name) = some d) ∧
    (∀ (ss : List Subdepartment) (s : Subdepartment),
      get_subdepartment (update_subdepartment ss s) (s.name)
        (s.department_name) = some s) ∧
    (∀ (ds : List Department) (d : Department),
      (∀ q ∈ ds, q.name ≠ d.name) → update_department ds d = ds ++ [d]) ∧
    (∀ (d : Department) (l1 : List Department) (q : Department)
        (l2 : List Department),
      q.name = d.name → (∀ r ∈ l1, r.name ≠ d.name) →
      update_department (l1 ++ q :: l2) d = l1 ++ d :: l2) ∧
    (∀ (ss : List Subdepartment) (s : Subdepartment),
      (∀ q ∈ ss, q.name ≠ s.name ∨ q.department_name ≠ s.department_name) →
      update_subdepartment ss s = ss ++ [s]) ∧
    (∀ (s : Subdepartment) (l1 : List Subdepartment) (q : Subdepartment)
        (l2 : List Subdepartment),
      q.name = s.name → q.department_name = s.department_name →
      (∀ r ∈ l1, r.name ≠ s.name ∨ r.department_name ≠ s.department_name) →
      update_subdepartment (l1 ++ q :: l2) s = l1 ++ s :: l2) :=
  ⟨get_update_department, get_update_subdepartment, update_department_miss,
   update_department_hit, update_subdepartment_miss, update_subdepartment_hit⟩

/-- Witness for C1 at concrete inputs: a miss-append round trip and a
replace-in-place hit on the shared name key. -/
theorem upsert_then_get_returns_upserted_witness :
    get_department (update_department [] depA) ((depA).name) = some depA ∧
    update_department [depA] depB = [depB] :=
  ⟨upsert_then_get_returns_upserted.1 [] depA,
   upsert_then_get_returns_upserted.2.2.2.1 depB [] depA [] (by decide)
     (by decide)⟩

/-- C5: `Person.get_current_position` returns the first assignment with
`is_current` in insertion order, deterministically even when several are
current, and returns the `None` sentinel exactly when no assignment is
current. -/
theorem get_current_position_first_current :
    (∀ p : Person,
      p.get_current_position = none ↔ ∀ a ∈ p.positions, a.is_current = false) ∧
    (∀ (p : Person) (l1 : List PositionAssignment) (a : PositionAssignment)
        (l2 : List PositionAssignment),
      p.positions = l1 ++ a :: l2 → (∀ b ∈ l1, b.is_current = false) →
      a.is_current = true → p.get_current_position = some a) := by
  constructor
  · intro p
    exact firstCurrent_eq_none_iff p.positions
  · intro p l1 a l2 hsplit hl ha
    unfold Person.get_current_position
    rw [hsplit]
    exact firstCurrent_first_match a l1 l2 hl ha

/-- Witness for C5: with a closed-out assignment first and two current
assignments after it, the lookup returns the first current one. -/
theorem get_current_position_first_current_witness :
    (mkPerson ("person_001")
        [assignOld, assignCur, assignCur2]).get_current_position =
      some assignCur :=
  get_current_position_first_current.2
    (mkPerson ("person_001") [assignOld, assignCur, assignCur2])
    [assignOld] assignCur [assignCur2] rfl (by decide) (by decide)

/-- C6: `update_position` and `update_person` return `True` and replace the
first record with the matching id when one exists, and return `False` with
the stored collection unchanged (no insertion) when no record matches. -/
theorem update_miss_no_insert_hit_replace :
    (∀ (l : List Position) (e : Position),
      (update_position l e).1 = true ↔ ∃ p ∈ l, p.id = e.id) ∧
    (∀ (l : List Position) (e : Position),
      (∀ p ∈ l, p.id ≠ e.id) → update_position l e = (false, l)) ∧
    (∀ (e : Position) (l1 : List Position) (q : Position) (l2 : List Position),
      q.id = e.id → (∀ r ∈ l1, r.id ≠ e.id) →
      update_position (l1 ++ q :: l2) e = (true, l1 ++ e :: l2)) ∧
    (∀ (l : List Person) (e : Person),
      (update_person l e).1 = true ↔ ∃ p ∈ l, p.id = e.id) ∧
    (∀ (l : List Person) (e : Person),
      (∀ p ∈ l, p.id ≠ e.id) → update_person l e = (false, l)) ∧
    (∀ (e : Person) (l1 : List Person) (q : Person) (l2 : List Person),
      q.id = e.id → (∀ r ∈ l1, r.id ≠ e.id) →
      update_person (l1 ++ q :: l2) e = (true, l1 ++ e :: l2)) :=
  ⟨update_position_found_iff, update_position_miss, update_position_hit,
   update_person_found_iff, update_person_miss, update_person_hit⟩

/-- Witness for C6: a hit replaces the record in place; a miss on an empty
store returns `False` and leaves it empty. -/
theorem update_miss_no_insert_hit_replace_witness :
    update_position [mkPosition ("pos_001")] posB = (true, [posB]) ∧
    update_position [] posB = (false, []) :=
  ⟨update_miss_no_insert_hit_replace.2.2.1 posB [] (mkPosition ("pos_001")) []
     (by decide) (by decide),
   update_miss_no_insert_hit_replace.2.1 [] posB (by decide)⟩

/-- C10: `Person.add_position` appends exactly one assignment whose
`is_current` equals the absence of `end_date`, leaves all previously stored
assignments (and the person's other fields) unchanged. -/
theorem add_position_invariant :
    ∀ (p : Person) (position_id start_date : String)
      (end_date : Option String),
      (p.add_position position_id start_date end_date).positions =
        p.positions ++
          [⟨position_id, some start_date, end_date, end_date.isNone⟩] ∧
      ((⟨position_id, some start_date, end_date, end_date.isNone⟩ :
          PositionAssignment).is_current = true ↔ end_date = none) ∧
      (p.add_position position_id start_date end_date).positions.take
        p.positions.length = p.positions ∧
      (p.add_position position_id start_date end_date).id = p.id ∧
      (p.add_position position_id start_date end_date).name = p.name ∧
      (p.add_position position_id start_date end_date).created_at =
        p.created_at := by
  intro p pid sd ed
  refine ⟨rfl, ?_, ?_, rfl, rfl, rfl⟩
  · simp
  · simp [Person.add_position, List.take_left]

/-- Witness for C10 at a concrete person: an open-ended assignment is
appended as current, a dated one as not current. -/
theorem add_position_invariant_witness :
    ((mkPerson ("person_001") [assignOld]).add_position ("pos_002")
        ("2021-01-01") none).positions =
      [assignOld, ⟨("pos_002"), some ("2021-01-01"), none, true⟩] :=
  (add_position_invariant (mkPerson ("person_001") [assignOld]) ("pos_002")
    ("2021-01-01") none).1

theorem foldl_max_filterMap {α : Type} (g : α → Option Int) :
    ∀ (l : List α) (a : Int),
      (l.filterMap g).foldl (fun a b => max a b) a =
        l.foldl (fun acc x =>
          match g x with
          | some n => max acc n
          | none => acc) a := by
  intro l
  induction l with
  | nil => intro a; rfl
  | cons x t ih =>
    intro a
    cases hg : g x <;> simp [List.filterMap_cons, hg, ih]

theorem get_next_person_id_formula (ps : List Person) :
    get_next_person_id ps =
      ("person_") ++
        zfill3 (max_token_value ("person_") (ps.map Person.id) + 1).toNat := by
  have hbody : (fun (acc : Int) (q : Person) =>
      if starts_with ("person_") (q.id) then
        match pyInt ((split_underscore q.id).getD 1 ("")) with
        | some n => max acc n
        | none => acc
      else acc) =
      (fun (acc : Int) (q : Person) =>
        match id_token_value ("person_") (q.id) with
        | some n => max acc n
        | none => acc) := by
    funext acc q
    unfold id_token_value
    by_cases h : starts_with ("person_") (q.id) = true
    · simp [h]
    · simp [h]
  cases ps with
  | nil => rfl
  | cons p t =>
    have h1 : max_token_value ("person_") ((p :: t).map Person.id) =
        (p :: t).foldl (fun acc q =>
          match id_token_value ("person_") (q.id) with
          | some n => max acc n
          | none => acc) (0 : Int) := by
      unfold max_token_value
      rw [foldl_max_filterMap, List.foldl_map]
    show ("person_") ++
        zfill3 (((p :: t).foldl (fun (acc : Int) (q : Person) =>
          if starts_with ("person_") (q.id) then
            match pyInt ((split_underscore q.id).getD 1 ("")) with
            | some n => max acc n
            | none => acc
          else acc) (0 : Int)) + 1).toNat = _
    rw [hbody, ← h1]

theorem get_next_position_id_formula (ps : List Position) :
    get_next_position_id ps =
      ("pos_") ++
        zfill3 (max_token_value ("pos_") (ps.map Position.id) + 1).toNat := by
  have hbody : (fun (acc : Int) (q : Position) =>
      if starts_with ("pos_") (q.id) then
        match pyInt ((split_underscore q.id).getD 1 ("")) with
        | some n => max acc n
        | none => acc
      else acc) =
      (fun (acc : Int) (q : Position) =>
        match id_token_value ("pos_") (q.id) with
        | some n => max acc n
        | none => acc) := by
    funext acc q
    unfold id_token_value
    by_cases h : starts_with ("pos_") (q.id) = true
    · simp [h]
    · simp [h]
  cases ps with
  | nil => rfl
  | cons p t =>
    have h1 : max_token_value ("pos_") ((p :: t).map Position.id) =
        (p :: t).foldl (fun acc q =>
          match id_token_value ("pos_") (q.id) with
          | some n => max acc n
          | none => acc) (0 : Int) := by
      unfold max_token_value
      rw [foldl_max_filterMap, List.foldl_map]
    show ("pos_") ++
        zfill3 (((p :: t).foldl (fun (acc : Int) (q : Position) =>
          if starts_with ("pos_") (q.id) then
            match pyInt ((split_underscore q.id).getD 1 ("")) with
            | some n => max acc n
            | none => acc
          else acc) (0 : Int)) + 1).toNat = _
    rw [hbody, ← h1]

theorem holdsAssignment_eq_any (l : List PositionAssignment)
    (position_id : String) (current_only : Bool) :
    holdsAssignment l position_id current_only =
      l.any (fun a => a.position_id == position_id &&
        (!current_only || a.is_current)) := by
  induction l with
  | nil => rfl
  | cons a t ih =>
    cases h1 : a.position_id == position_id
    · simp [holdsAssignment, h1, ih]
    · cases h2 : (!current_only || a.is_current)
      · simp [holdsAssignment, h1, h2, ih]
      · simp [holdsAssignment, h1, h2]

theorem get_persons_by_position_eq_filter (ps : List Person)
    (position_id : String) (current_only : Bool) :
    get_persons_by_position ps position_id current_only =
      ps.filter (holds_position position_id current_only) := by
  induction ps with
  | nil => rfl
  | cons p t ih =>
    have hc : holdsAssignment p.positions position_id current_only =
        holds_position position_id current_only p :=
      holdsAssignment_eq_any p.positions position_id current_only
    unfold get_persons_by_position
    rw [hc, ih, List.filter_cons]

theorem count_filter_eq {α : Type} [DecidableEq α] (pr : α → Bool)
    (l : List α) (a : α) :
    (l.filter pr).count a = if pr a then l.count a else 0 := by
  by_cases h : pr a = true
  · simp [h, List.count_filter]
  · simp only [h, Bool.false_eq_true, if_false]
    rw [List.count_eq_zero]
    intro hmem
    exact absurd (List.mem_filter.mp hmem).2 (by simp [h])

/-- C2, corrected: the id-counter scan does not skip every id whose suffix
after the prefix is non-numeric.  For the id person_3_xyz the suffix 3_xyz
is not numeric (`pyInt` rejects it), yet `get_next_person_id` counts the
token 3 (`id.split('_')[1]`) and returns person_004 instead of the
person_001 the claim requires. -/
theorem next_id_counts_token_of_doubly_underscored_id :
    pyInt ("3_xyz") = none ∧
    get_next_person_id [mkPerson ("person_3_xyz") []] = ("person_004") ∧
    (("person_004") : String) ≠ ("person_001") :=
  ⟨by decide, by decide, by decide⟩

/-- C2 as amended: `get_next_person_id` returns person_001 on an empty
collection and otherwise person_ followed by the zero-padded successor of
the maximum (floored at 0) numeric value of the token between the first and
second underscore among ids with the person_ prefix; ids whose token is
non-numeric are skipped and never cause a crash (the function is total);
person_003 and person_007 yield person_008.  Likewise for
`get_next_position_id` with the pos_ prefix. -/
theorem next_id_formula_and_examples :
    get_next_person_id [] = ("person_001") ∧
    get_next_position_id [] = ("pos_001") ∧
    (∀ ps : List Person, get_next_person_id ps =
      ("person_") ++
        zfill3 (max_token_value ("person_") (ps.map Person.id) + 1).toNat) ∧
    (∀ ps : List Position, get_next_position_id ps =
      ("pos_") ++
        zfill3 (max_token_value ("pos_") (ps.map Position.id) + 1).toNat) ∧
    (∀ (ps : List Person) (p : Person),
      id_token_value ("person_") (p.id) = none →
      get_next_person_id (ps ++ [p]) = get_next_person_id ps) ∧
    get_next_person_id [mkPerson ("person_003") [], mkPerson ("person_007") []] =
      ("person_008") := by
  refine ⟨rfl, rfl, get_next_person_id_formula, get_next_position_id_formula,
    ?_, by decide⟩
  intro ps p h
  rw [get_next_person_id_formula, get_next_person_id_formula]
  unfold max_token_value
  simp [List.filterMap_append, h]

/-- Witness for C2's amended theorem: appending an id with a non-numeric
token does not change the next id. -/
theorem next_id_formula_and_examples_witness :
    get_next_person_id
        ([mkPerson ("person_003") []] ++ [mkPerson ("person_x") []]) =
      get_next_person_id [mkPerson ("person_003") []] :=
  next_id_formula_and_examples.2.2.2.2.1 [mkPerson ("person_003") []]
    (mkPerson ("person_x") []) (by decide)

/-- C3: `get_persons_by_position` returns exactly the stored persons (in
order) having some assignment to the position that passes the current-only
test: with current_only a person all of whose assignments to the position
are not current is excluded, a person with a current assignment to it is
included, without current_only any assignment to it suffices, and each
qualifying person occurs in the result exactly as often as in the store
(hence exactly once when stored once, regardless of how many assignments
match). -/
theorem persons_by_position_filter_semantics :
    ∀ (ps : List Person) (position_id : String),
      (∀ current_only : Bool,
        get_persons_by_position ps position_id current_only =
          ps.filter (holds_position position_id current_only)) ∧
      (∀ p ∈ ps, (∀ a ∈ p.positions, a.position_id = position_id →
          a.is_current = false) →
        p ∉ get_persons_by_position ps position_id true) ∧
      (∀ p ∈ ps, (∃ a ∈ p.positions, a.position_id = position_id ∧
          a.is_current = true) →
        p ∈ get_persons_by_position ps position_id true) ∧
      (∀ p ∈ ps, (∃ a ∈ p.positions, a.position_id = position_id) →
        p ∈ get_persons_by_position ps position_id false) ∧
      (∀ (current_only : Bool) (p : Person),
        (get_persons_by_position ps position_id current_only).count p =
          if holds_position position_id current_only p then ps.count p
          else 0) := by
  intro ps position_id
  refine ⟨fun co => get_persons_by_position_eq_filter ps position_id co,
    ?_, ?_, ?_, ?_⟩
  · intro p hp h hmem
    rw [get_persons_by_position_eq_filter] at hmem
    have hq := (List.mem_filter.mp hmem).2
    simp only [holds_position, List.any_eq_true, Bool.and_eq_true,
      Bool.not_true, Bool.false_or, beq_iff_eq] at hq
    obtain ⟨a, ha, hpid, hcur⟩ := hq
    simp [h a ha hpid] at hcur
  · intro p hp h
    rw [get_persons_by_position_eq_filter]
    obtain ⟨a, ha, hpid, hcur⟩ := h
    refine List.mem_filter.mpr ⟨hp, ?_⟩
    simp only [holds_position, List.any_eq_true, Bool.and_eq_true,
      Bool.not_true, Bool.false_or, beq_iff_eq]
    exact ⟨a, ha, hpid, hcur⟩
  · intro p hp h
    rw [get_persons_by_position_eq_filter]
    obtain ⟨a, ha, hpid⟩ := h
    refine List.mem_filter.mpr ⟨hp, ?_⟩
    simp only [holds_position, List.any_eq_true, Bool.and_eq_true,
      Bool.not_false, Bool.true_or, beq_iff_eq, and_true]
    exact ⟨a, ha, hpid⟩
  · intro co p
    rw [get_persons_by_position_eq_filter]
    exact count_filter_eq (holds_position position_id co) ps p

/-- Witness for C3: a person whose only assignment to pos_001 is closed out
is excluded with current_only and included without it. -/
theorem persons_by_position_filter_semantics_witness :
    (mkPerson ("person_001") [assignOld]) ∉
      get_persons_by_position [mkPerson ("person_001") [assignOld]]
        ("pos_001") true ∧
    (mkPerson ("person_001") [assignOld]) ∈
      get_persons_by_position [mkPerson ("person_001") [assignOld]]
        ("pos_001") false :=
  ⟨(persons_by_position_filter_semantics [mkPerson ("person_001") [assignOld]]
      ("pos_001")).2.1 (mkPerson ("person_001") [assignOld]) (by decide)
      (by decide),
   (persons_by_position_filter_semantics [mkPerson ("person_001") [assignOld]]
      ("pos_001")).2.2.2.1 (mkPerson ("person_001") [assignOld]) (by decide)
      (by decide)⟩

theorem listLe_trans :
    ∀ l1 l2 l3 : List Char, listLe l1 l2 = true → listLe l2 l3 = true →
      listLe l1 l3 = true := by
  intro l1
  induction l1 with
  | nil => intro l2 l3 _ _; rfl
  | cons a t ih =>
    intro l2 l3 h1 h2
    cases l2 with
    | nil => simp [listLe] at h1
    | cons b t2 =>
      cases l3 with
      | nil => simp [listLe] at h2
      | cons c t3 =>
        simp only [listLe] at h1 h2 ⊢
        by_cases hab : a.toNat < b.toNat
        · by_cases hbc : b.toNat < c.toNat
          · rw [if_pos (by omega)]
          · rw [if_neg hbc] at h2
            by_cases hcb : c.toNat < b.toNat
            · rw [if_pos hcb] at h2
              exact absurd h2 (by simp)
            · rw [if_pos (by omega)]
        · by_cases hba : b.toNat < a.toNat
          · rw [if_neg hab, if_pos hba] at h1
            exact absurd h1 (by simp)
          · rw [if_neg hab, if_neg hba] at h1
            by_cases hbc : b.toNat < c.toNat
            · rw [if_pos (by omega)]
            · rw [if_neg hbc] at h2
              by_cases hcb : c.toNat < b.toNat
              · rw [if_pos hcb] at h2
                exact absurd h2 (by simp)
              · rw [if_neg hcb] at h2
                rw [if_neg (by omega), if_neg (by omega)]
                exact ih t2 t3 h1 h2

theorem listLe_total :
    ∀ l1 l2 : List Char, listLe l1 l2 = true ∨ listLe l2 l1 = true := by
  intro l1
  induction l1 with
  | nil => intro l2; exact Or.inl rfl
  | cons a t ih =>
    intro l2
    cases l2 with
    | nil => exact Or.inr rfl
    | cons b t2 =>
      simp only [listLe]
      by_cases hab : a.toNat < b.toNat
      · exact Or.inl (by rw [if_pos hab])
      · by_cases hba : b.toNat < a.toNat
        · exact Or.inr (by rw [if_pos hba])
        · rcases ih t2 with h | h
          · exact Or.inl (by rw [if_neg hab, if_neg hba]; exact h)
          · exact Or.inr (by rw [if_neg hba, if_neg hab]; exact h)

theorem listLe_nil_right (l : List Char) (h : listLe l [] = true) : l = [] := by
  cases l with
  | nil => rfl
  | cons c cs => simp [listLe] at h

theorem strLe_empty_right (s : String) (h : strLe s ("") = true) :
    s = ("") := by
  have h2 : s.toList = [] := listLe_nil_right s.toList h
  cases s with
  | mk data =>
    cases data with
    | nil => rfl
    | cons c cs => simp [String.toList] at h2

theorem mention_sort_sorted (l : List Mention) :
    List.Sorted mention_before (List.insertionSort mention_before l) := by
  haveI htot : IsTotal Mention mention_before := ⟨fun a b => by
    unfold mention_before
    rcases listLe_total (dateKey b).toList (dateKey a).toList with h | h
    · exact Or.inl h
    · exact Or.inr h⟩
  haveI htrans : IsTrans Mention mention_before := ⟨fun a b c h1 h2 => by
    unfold mention_before at h1 h2 ⊢
    exact listLe_trans (dateKey c).toList (dateKey b).toList
      (dateKey a).toList h2 h1⟩
  exact List.sorted_insertionSort mention_before l

theorem mention_sort_perm (l : List Mention) :
    (List.insertionSort mention_before l).Perm l :=
  List.perm_insertionSort mention_before l

theorem load_mentions_perm (docs : List MDoc) :
    (load_mentions docs).Perm (docs.filterMap parse_mention_doc) :=
  mention_sort_perm (docs.filterMap parse_mention_doc)

theorem load_mentions_sorted (docs : List MDoc) :
    List.Sorted mention_before (load_mentions docs) :=
  mention_sort_sorted (docs.filterMap parse_mention_doc)

theorem all_loaded_perm (dirs : List (String × List MDoc)) :
    (all_loaded_mentions dirs).Perm (all_parsed_mentions dirs) := by
  induction dirs with
  | nil => exact List.Perm.refl _
  | cons pd t ih =>
    simp only [all_loaded_mentions, all_parsed_mentions, List.map_cons,
      List.flatten_cons]
    exact (load_mentions_perm pd.2).append ih

/-- C4: `load_mentions` returns the person's well-formed (parseable)
mention documents sorted by date descending under lexicographic string
comparison of the date key, and every mention whose date is empty or
missing (`None`) comes after all mentions with a date. -/
theorem load_mentions_sorted_desc_dateless_last :
    ∀ docs : List MDoc,
      List.Sorted mention_before (load_mentions docs) ∧
      (load_mentions docs).Perm (docs.filterMap parse_mention_doc) ∧
      (load_mentions docs).Pairwise
        (fun a b => dateKey a = ("") → dateKey b = ("")) := by
  intro docs
  refine ⟨load_mentions_sorted docs, load_mentions_perm docs, ?_⟩
  refine List.Pairwise.imp ?_ (load_mentions_sorted docs)
  intro a b hab ha
  unfold mention_before at hab
  rw [ha] at hab
  exact strLe_empty_right (dateKey b) hab

/-- Witness for C4: three documents (middle one dateless) load as a
permutation of their parses; the claim theorem applied at this input. -/
theorem load_mentions_sorted_desc_dateless_last_witness :
    (load_mentions
        [some (Mention.to_dict (mkMention ("m1") (some ("2020-01-01")))),
         some (Mention.to_dict (mkMention ("m3") none)),
         some (Mention.to_dict (mkMention ("m2") (some ("2021-01-01"))))]).Perm
      ([some (Mention.to_dict (mkMention ("m1") (some ("2020-01-01")))),
        some (Mention.to_dict (mkMention ("m3") none)),
        some (Mention.to_dict
          (mkMention ("m2") (some ("2021-01-01"))))].filterMap
        parse_mention_doc) :=
  (load_mentions_sorted_desc_dateless_last
    [some (Mention.to_dict (mkMention ("m1") (some ("2020-01-01")))),
     some (Mention.to_dict (mkMention ("m3") none)),
     some (Mention.to_dict (mkMention ("m2") (some ("2021-01-01"))))]).2.1

/-- C8: a mention document that fails to parse is skipped and does not
abort the bulk load: `load_mentions` returns exactly the successfully
parsed mentions, and removing a malformed document from the directory does
not change the result. -/
theorem load_mentions_skips_malformed :
    (∀ docs : List MDoc,
      (load_mentions docs).Perm (docs.filterMap parse_mention_doc)) ∧
    (∀ (l1 : List MDoc) (d : MDoc) (l2 : List MDoc),
      parse_mention_doc d = none →
      load_mentions (l1 ++ d :: l2) = load_mentions (l1 ++ l2)) := by
  refine ⟨load_mentions_perm, ?_⟩
  intro l1 d l2 h
  simp [load_mentions, List.filterMap_append, List.filterMap_cons, h]

/-- Witness for C8: a directory with one good document and one unparseable
file loads the same as without the bad file. -/
theorem load_mentions_skips_malformed_witness :
    load_mentions
        [some (Mention.to_dict (mkMention ("m1") (some ("2020-01-01")))),
         none] =
      load_mentions
        [some (Mention.to_dict (mkMention ("m1") (some ("2020-01-01"))))] :=
  load_mentions_skips_malformed.2
    [some (Mention.to_dict (mkMention ("m1") (some ("2020-01-01"))))] none []
    rfl

/-- C7, corrected: the claim fails at limit 0.  `if limit:` is false for 0,
so `get_all_mentions(0)` returns the full sorted union (here of length 1)
rather than at most 0 elements. -/
theorem get_all_mentions_limit_zero_returns_all :
    (get_all_mentions
        [(("person_001"),
          [some (Mention.to_dict (mkMention ("m1") (some ("2020-01-01"))))])]
        (some 0)).length = 1 ∧
    ¬ (get_all_mentions
        [(("person_001"),
          [some (Mention.to_dict (mkMention ("m1") (some ("2020-01-01"))))])]
        (some 0)).length ≤ 0 :=
  ⟨by decide, by decide⟩

/-- C7 as amended: `get_all_mentions` with a positive limit n returns the
first n elements of the union of all persons' mentions re-sorted by date
descending; with no limit it returns the full sorted union.  (A limit of 0
is treated as no limit, and a negative limit slices from the end.) -/
theorem get_all_mentions_sorted_truncated :
    ∀ dirs : List (String × List MDoc),
      List.Sorted mention_before (all_mentions_sorted dirs) ∧
      (all_mentions_sorted dirs).Perm (all_parsed_mentions dirs) ∧
      get_all_mentions dirs none = all_mentions_sorted dirs ∧
      (∀ n : Int, 1 ≤ n →
        get_all_mentions dirs (some n) =
          (all_mentions_sorted dirs).take n.toNat) := by
  intro dirs
  refine ⟨mention_sort_sorted _, ?_, rfl, ?_⟩
  · exact (mention_sort_perm _).trans (all_loaded_perm dirs)
  · intro n hn
    simp only [get_all_mentions, pyTakeSlice]
    rw [if_neg (by omega), if_pos (by omega)]

/-- Witness for C7's amended theorem at limit 1. -/
theorem get_all_mentions_sorted_truncated_witness :
    get_all_mentions
        [(("person_001"),
          [some (Mention.to_dict (mkMention ("m1") (some ("2020-01-01"))))])]
        (some 1) =
      (all_mentions_sorted
        [(("person_001"),
          [some (Mention.to_dict
            (mkMention ("m1") (some ("2020-01-01"))))])]).take
        ((1 : Int)).toNat :=
  (get_all_mentions_sorted_truncated
    [(("person_001"),
      [some (Mention.to_dict (mkMention ("m1") (some ("2020-01-01"))))])]).2.2.2
    1 (by decide)

/-- C9: `Mention` serialization round-trips: deserializing a serialized
mention returns an equal mention (for every mention, including those with
absent url and title and non-empty tags), and re-serializing the
deserialized value yields output equal to the original serialization. -/
theorem mention_serialization_roundtrip :
    ∀ m : Mention,
      Mention.from_dict (Mention.to_dict m) = some m ∧
      (Mention.from_dict (Mention.to_dict m)).map Mention.to_dict =
        some (Mention.to_dict m) := by
  intro m
  have h : Mention.from_dict (Mention.to_dict m) = some m := by
    rcases m with ⟨i, pid, dt, src, u, t, tx, tg, cm, cb, ca, ap, ab, aa⟩
    cases dt <;> cases u <;> cases t <;> cases ab <;> cases aa <;> rfl
  exact ⟨h, by rw [h]; rfl⟩

end Tracker
